import Mathlib

/-!
Verification of the portfolio risk-analytics and multi-method optimization
engine of `backend/app/api/v1/routers/stock_router.py`.

The numeric computations of the router are embedded over `ℚ` (with `ℝ` only
where the source takes a square root).  Pandas/numpy aggregates (`mean`,
`std(ddof=1)`, `percentile`, `cumprod`, `expanding().max()`) are modelled by
the corresponding list functions; Python dictionaries keyed by symbol are
modelled by association lists in insertion order.
-/

namespace StockApp

/-! ## List statistics -/

/-- Arithmetic mean of a list of rationals (`Series.mean()`); `0` for the
empty list, which never arises in the claims below. -/
def mean (l : List ℚ) : ℚ := l.sum / l.length

/-- Sample variance with `ddof = 1`, the square of `pandas.Series.std()`;
`0` when the list has fewer than two elements. -/
def sampleVar (l : List ℚ) : ℚ :=
  (l.map (fun x => (x - mean l) ^ 2)).sum / ((l.length - 1 : ℕ) : ℚ)

/-- Linear-interpolation quantile, exactly as `numpy.percentile` (default
`linear` interpolation) and `pandas.Series.quantile` compute it: with the data
sorted ascending and `h = (n-1)·q`, the result is
`s[⌊h⌋] + (h - ⌊h⌋)·(s[⌊h⌋+1] - s[⌊h⌋])`. -/
def quantile (q : ℚ) (l : List ℚ) : ℚ :=
  let s := l.insertionSort (· ≤ ·)
  let h : ℚ := ((l.length : ℚ) - 1) * q
  let k : ℕ := ⌊h⌋.toNat
  let a := s.getD k 0
  a + (h - (k : ℚ)) * (s.getD (k + 1) a - a)

/-- `numpy.percentile(l, p)`. -/
def percentile (p : ℚ) (l : List ℚ) : ℚ := quantile (p / 100) l

/-! ## Drawdown (analyze_portfolio lines 1277–1281) -/

/-- Cumulative products of `1 + r`, starting from the partial product `c`. -/
def cumprodFrom (c : ℚ) : List ℚ → List ℚ
  | [] => []
  | r :: rs => (c * (1 + r)) :: cumprodFrom (c * (1 + r)) rs

/-- `(1 + portfolio_returns).cumprod()`. -/
def cumprod (rs : List ℚ) : List ℚ := cumprodFrom 1 rs

/-- Running maxima continuing from the partial maximum `m`. -/
def runningMaxFrom (m : ℚ) : List ℚ → List ℚ
  | [] => []
  | x :: xs => max m x :: runningMaxFrom (max m x) xs

/-- `series.expanding().max()`. -/
def runningMax : List ℚ → List ℚ
  | [] => []
  | x :: xs => x :: runningMaxFrom x xs

/-- The drawdown series `(cumulative_returns / rolling_max) - 1`. -/
def drawdowns (rs : List ℚ) : List ℚ :=
  List.zipWith (fun c m => c / m - 1) (cumprod rs) (runningMax (cumprod rs))

/-- `drawdown.min()`, the reported maximum drawdown: the minimum of the
drawdown series, folded from its first element. -/
def maxDrawdown (rs : List ℚ) : ℚ :=
  ((drawdowns rs).tail).foldl min ((drawdowns rs).headD 0)

/-! ## Risk metrics (analyze_portfolio lines 1262–1328) -/

/-- Annualized mean return of the daily series (`mean() * 252`). -/
def annualizedReturn (s : List ℚ) : ℚ := mean s * 252

/-- Annualized volatility `std() * sqrt(252)` as a real number. -/
noncomputable def annualizedVol (s : List ℚ) : ℝ :=
  Real.sqrt ((sampleVar s : ℝ) * 252)

/-- The fields of the `risk_metrics` response block relevant to the claims. -/
structure RiskMetrics where
  portfolioVolatility : ℝ
  portfolioReturn : ℚ
  var95 : ℚ
  cvar95 : ℚ
  maxDD : ℚ
  diversificationRatio : ℝ
  sharpeRatio : ℝ

/-- The risk-metrics block of `analyze_portfolio` computed from the daily
portfolio return series `s`; `weightedVols` is the weighted sum of individual
annualized volatilities that feeds the diversification ratio. -/
noncomputable def riskMetrics (s : List ℚ) (weightedVols : ℝ) : RiskMetrics :=
  let vol := annualizedVol s
  { portfolioVolatility := vol
    portfolioReturn := annualizedReturn s
    var95 := percentile 5 s
    cvar95 := mean (s.filter (fun x => x ≤ percentile 5 s))
    maxDD := maxDrawdown s
    diversificationRatio := if 0 < vol then weightedVols / vol else 0
    sharpeRatio := if 0 < vol then ((annualizedReturn s : ℚ) : ℝ) / vol else 0 }

/-! ## Analyze-path weights (analyze_portfolio lines 1262–1267) -/

/-- The weight vector actually used for all risk metrics:
`weights = weights / weights.sum()`. -/
def effectiveWeights {n : ℕ} (w : Fin n → ℚ) : Fin n → ℚ :=
  fun i => w i / ∑ j, w j

/-- Daily portfolio return series `(returns * weights).sum(axis=1)` over the
aligned return matrix given row-wise. -/
def portfolioSeries {n : ℕ} (rows : List (Fin n → ℚ)) (w : Fin n → ℚ) : List ℚ :=
  rows.map (fun row => ∑ i, effectiveWeights w i * row i)

/-- Column `i` of the return matrix. -/
def column {n : ℕ} (rows : List (Fin n → ℚ)) (i : Fin n) : List ℚ :=
  rows.map (fun r => r i)

/-- Full risk-metrics computation of the analyze path for informational
weights `w` (normalized internally, never clamped). -/
noncomputable def analyzeRiskMetrics {n : ℕ} (rows : List (Fin n → ℚ))
    (w : Fin n → ℚ) : RiskMetrics :=
  riskMetrics (portfolioSeries rows w)
    (∑ i, ((effectiveWeights w i : ℚ) : ℝ) * annualizedVol (column rows i))

/-! ## Outlier detection (detect_portfolio_outliers, lines 1360–1425) -/

/-- A pandas index label: the date-string index used when the price data
carries dates, or the integer index used otherwise.  Membership tests between
values of different shapes are always false, as in Python. -/
inductive PyLabel
  | str (s : String)
  | int (i : ℕ)
deriving DecidableEq

/-- Z-score criterion `|x - mean| / std > 3`, stated without the square root:
for `std > 0` this is `(x - mean)² > 9·var`, and for a zero-variance series
the pandas expression is `NaN > 3 = False`, which the inequality also gives. -/
def zFlag (col : List ℚ) (x : ℚ) : Bool :=
  decide ((x - mean col) ^ 2 > 9 * sampleVar col)

/-- Interquartile criterion: outside `[Q1 - 1.5·IQR, Q3 + 1.5·IQR]`. -/
def iqrFlag (col : List ℚ) (x : ℚ) : Bool :=
  let q1 := quantile (1 / 4) col
  let q3 := quantile (3 / 4) col
  decide (x < q1 - 3 / 2 * (q3 - q1) ∨ x > q3 + 3 / 2 * (q3 - q1))

/-- Per-asset outlier data as the router reports it. -/
structure ColumnOutliers where
  outliers : List (PyLabel × ℚ)
  normal : List (PyLabel × ℚ)
  zscoreCount : ℕ
  iqrCount : ℕ
deriving DecidableEq

/-- One column of `detect_portfolio_outliers`: `labels` is the pandas index of
the return series (`dates[-len(symbol_returns):]`).  The flagged set
`outlier_indices` is a set of index labels, but the loop that splits the
points tests membership of the positional counter `i` in that set. -/
def detectColumn (labels : List PyLabel) (vals : List ℚ) : ColumnOutliers :=
  let flagged : List PyLabel :=
    (labels.zip vals).filterMap fun p =>
      if zFlag vals p.2 || iqrFlag vals p.2 then some p.1 else none
  let points := (labels.zip vals).enum
  { outliers := (points.filter fun q => decide (PyLabel.int q.1 ∈ flagged)).map Prod.snd
    normal := (points.filter fun q => !decide (PyLabel.int q.1 ∈ flagged)).map Prod.snd
    zscoreCount := (vals.filter fun x => zFlag vals x).length
    iqrCount := (vals.filter fun x => iqrFlag vals x).length }

/-- Aggregate outlier report over all asset columns. -/
structure OutlierReport where
  perAsset : List (String × ColumnOutliers)
  totalOutliers : ℕ
  outliersPercentage : ℚ
deriving DecidableEq

/-- `detect_portfolio_outliers` over a list of named columns. -/
def detectPortfolioOutliers (cols : List (String × List PyLabel × List ℚ)) :
    OutlierReport :=
  let perAsset := cols.map fun c => (c.1, detectColumn c.2.1 c.2.2)
  let totalPoints : ℕ :=
    (perAsset.map fun p => p.2.outliers.length + p.2.normal.length).sum
  let totalOutliers : ℕ := (perAsset.map fun p => p.2.outliers.length).sum
  { perAsset := perAsset
    totalOutliers := totalOutliers
    outliersPercentage :=
      if 0 < totalPoints then (totalOutliers : ℚ) / (totalPoints : ℚ) * 100 else 0 }

/-- Concrete test input: twelve trading-date labels, the date-string pandas
index the analyze path attaches to the return series. -/
def spikeLabels : List PyLabel :=
  [.str "d01", .str "d02", .str "d03", .str "d04", .str "d05", .str "d06",
   .str "d07", .str "d08", .str "d09", .str "d10", .str "d11", .str "d12"]

/-- Concrete test input: eleven flat returns and one spike; the spike is
flagged by both the z-score and the interquartile criterion. -/
def spikeReturns : List ℚ := [0, 0, 0, 0, 0, 0, 0, 0, 0, 0, 0, 1]

/-! ## Price alignment (analyze_portfolio lines 1240–1246, optimize_portfolio
lines 1503–1506) -/

/-- `df.pct_change().dropna()` on one price column. -/
def pctChange (prices : List ℚ) : List ℚ :=
  (prices.zip prices.tail).map fun p => p.2 / p.1 - 1

/-- The aligned return matrix both endpoints build before any statistics. -/
structure AlignedReturns where
  symbols : List String
  returnRows : ℕ
  returns : List (String × List ℚ)
deriving DecidableEq

/-- Front end shared by `analyze_portfolio` and `optimize_portfolio`: assets
without usable data are dropped; with fewer than two remaining the request
fails; otherwise every series is truncated to its most recent `min_length`
observations and differenced.  No check on the number of return rows exists
anywhere after this point — the code proceeds directly to statistics,
risk metrics and optimization. -/
def alignPipeline (priceData : List (String × List ℚ)) :
    Except String AlignedReturns :=
  let usable := priceData.filter fun p => !p.2.isEmpty
  if usable.length < 2 then
    .error "No se pudieron obtener datos suficientes"
  else
    let m := ((usable.map fun p => p.2.length).min?).getD 0
    let truncated := usable.map fun p => (p.1, p.2.drop (p.2.length - m))
    .ok { symbols := truncated.map Prod.fst
          returnRows := m - 1
          returns := truncated.map fun p => (p.1, pctChange p.2) }

/-! ## Method scoring and selection (determine_optimal_selection,
lines 1832–1891) -/

/-- The four optimization methods. -/
inductive Method
  | risk_parity | markowitz | hybrid | black_litterman
deriving DecidableEq

/-- The metrics of a converged optimizer result used by the selector. -/
structure MethodMetrics where
  sharpe : ℚ
  expRet : ℚ
  vol : ℚ
deriving DecidableEq

/-- Fixed per-method bonus (lines 1850–1855). -/
def methodBonus : Method → ℚ
  | .risk_parity => 5
  | .markowitz => 8
  | .hybrid => 10
  | .black_litterman => 7

/-- Composite score (lines 1845–1857):
`25·sharpe + 100·expected_return + max(0, 25 - 100·volatility) + bonus`. -/
def compositeScore (m : Method) (d : MethodMetrics) : ℚ :=
  d.sharpe * 25 + d.expRet * 100 + max 0 (25 - d.vol * 100) + methodBonus m

/-- Iteration order of the selector's method loop (line 1837). -/
def methodOrder : List Method := [.risk_parity, .markowitz, .hybrid, .black_litterman]

/-- The scored methods in iteration order: a method is scored iff it is
present in the results and its result has no error field (line 1841). -/
def scoredList (results : Method → Option (Except String MethodMetrics)) :
    List (Method × ℚ) :=
  methodOrder.filterMap fun m =>
    match results m with
    | some (.ok d) => some (m, compositeScore m d)
    | _ => none

/-- Python `max(keys, key=score)` starting from the accumulator `b`: the first
element attaining the maximum is kept. -/
def pyMaxFrom (b : Method × ℚ) : List (Method × ℚ) → Method × ℚ
  | [] => b
  | x :: xs => pyMaxFrom (if b.2 < x.2 then x else b) xs

/-- Descending order on scores used for the ranked comparison
(`sort(key=score, reverse=True)`, line 1878). -/
def scoreGe (a b : Method × ℚ) : Prop := b.2 ≤ a.2

instance : DecidableRel scoreGe := fun a b => inferInstanceAs (Decidable (b.2 ≤ a.2))

instance : IsTotal (Method × ℚ) scoreGe := ⟨fun a b => le_total b.2 a.2⟩

instance : IsTrans (Method × ℚ) scoreGe := ⟨fun _ _ _ h1 h2 => le_trans h2 h1⟩

/-- The selector's output fields relevant to the claims. -/
structure Selection where
  bestMethod : Method
  totalScore : ℚ
  methodComparison : List (Method × ℚ)
deriving DecidableEq

/-- Model of `determine_optimal_selection`: score every requested method whose
result carries no error, fail when none is left, otherwise pick the
highest-scoring method and return all scored methods ranked by score. -/
def determineOptimalSelection
    (results : Method → Option (Except String MethodMetrics)) :
    Except String Selection :=
  match scoredList results with
  | [] => .error "No hay métodos válidos para selección óptima"
  | x :: xs =>
    let best := pyMaxFrom x xs
    .ok { bestMethod := best.1
          totalScore := best.2
          methodComparison := (x :: xs).insertionSort scoreGe }

/-- The optimize response as assembled in lines 1514–1547: `success` is set to
`True` when the response dictionary is created and the selector's outcome —
its error case included — is stored under `optimal_selection`; no exception is
raised on selector failure. -/
structure OptimizeResponse where
  success : Bool
  optimalSelection : Except String Selection

/-- Tail of `optimize_portfolio` joining the per-method results with the
selector. -/
def optimizeResponse (results : Method → Option (Except String MethodMetrics)) :
    OptimizeResponse :=
  { success := true
    optimalSelection := determineOptimalSelection results }

/-! ## Hybrid optimizer (optimize_hybrid, lines 1709–1748) -/

/-- Python dict lookup on an insertion-ordered association list. -/
def dictLookup (d : List (String × ℚ)) (k : String) : Option ℚ :=
  (d.find? fun p => p.1 == k).map Prod.snd

/-- The element-wise averaging loop of `optimize_hybrid` (lines 1722–1724):
for every symbol of the risk-parity dict also present in the Markowitz dict,
take the arithmetic mean of the two weights. -/
def combineWeights (rp mv : List (String × ℚ)) : List (String × ℚ) :=
  rp.filterMap fun p =>
    match dictLookup mv p.1 with
    | some b => some (p.1, (p.2 + b) / 2)
    | none => none

/-- Model of `optimize_hybrid`'s weight computation: explicit errors when
either input dict is empty or when no symbol is shared, otherwise the averaged
weights renormalized by their sum. -/
def optimizeHybridWeights (rp mv : List (String × ℚ)) :
    Except String (List (String × ℚ)) :=
  if rp.isEmpty || mv.isEmpty then
    .error "Se requieren tanto Risk Parity como Markowitz para optimización híbrida"
  else
    let combined := combineWeights rp mv
    if combined.isEmpty then
      .error "No hay símbolos comunes entre Risk Parity y Markowitz"
    else
      let total := (combined.map Prod.snd).sum
      .ok (combined.map fun p => (p.1, p.2 / total))

/-! ## Solver-backed optimizers (lines 1555–1829) -/

/-- Box bounds `(0.01, 0.8)` passed to every solver call
(lines 1582, 1672, 1792). -/
def weightLo : ℚ := 1 / 100

/-- Upper box bound. -/
def weightHi : ℚ := 4 / 5

/-- Result fields shared by the solver-backed optimizers. -/
structure OptResult (n : ℕ) where
  weights : Fin n → ℚ
  expectedReturn : ℚ
  volatility : ℝ
  sharpeRatio : ℝ

/-- Success branch shared by risk parity (lines 1598–1613), Markowitz
(1687–1701) and Black-Litterman (1807–1824): the solver's weight vector `x` is
returned unchanged, and the reported metrics are computed from the original
`μ` and `Σ`. -/
noncomputable def solverSuccessResult {n : ℕ} (μ : Fin n → ℚ)
    (cov : Matrix (Fin n) (Fin n) ℚ) (rf : ℚ) (x : Fin n → ℚ) : OptResult n :=
  let ret := Matrix.dotProduct μ x
  let vol : ℝ := Real.sqrt ((Matrix.dotProduct x (cov.mulVec x) : ℚ) : ℝ)
  { weights := x
    expectedReturn := ret
    volatility := vol
    sharpeRatio := if 0 < vol then (((ret - rf : ℚ)) : ℝ) / vol else 0 }

/-! ## Black-Litterman (optimize_black_litterman, lines 1751–1829) -/

/-- Equal "market" prior weights `[1/n] * n` (line 1765). -/
def marketWeights (n : ℕ) : Fin n → ℚ := fun _ => 1 / (n : ℚ)

/-- Implied equilibrium returns `risk_aversion * Σ @ market_weights` with
`risk_aversion = 3.0` (lines 1768–1769). -/
def impliedReturns {n : ℕ} (cov : Matrix (Fin n) (Fin n) ℚ) : Fin n → ℚ :=
  (3 : ℚ) • cov.mulVec (marketWeights n)

/-- Posterior covariance `Σ + τΣ` with `τ = 0.025` (lines 1762, 1772, 1781). -/
def blCov {n : ℕ} (cov : Matrix (Fin n) (Fin n) ℚ) : Matrix (Fin n) (Fin n) ℚ :=
  cov + (1 / 40 : ℚ) • cov

/-- View-free posterior return vector: `bl_returns = implied_returns`
(line 1778). -/
def blReturns {n : ℕ} (cov : Matrix (Fin n) (Fin n) ℚ) : Fin n → ℚ :=
  impliedReturns cov

/-- Objective handed to the SLSQP solver (lines 1784–1788):
`wᵀ(Σ + τΣ)w - risk_aversion · (bl_returns · w)`. -/
def blObjective {n : ℕ} (cov : Matrix (Fin n) (Fin n) ℚ) (w : Fin n → ℚ) : ℚ :=
  Matrix.dotProduct w ((blCov cov).mulVec w) -
    3 * Matrix.dotProduct (blReturns cov) w

/-- Black-Litterman result: the shared solver result plus the method-specific
metadata fields. -/
structure BLResult (n : ℕ) extends OptResult n where
  tau : ℚ
  riskAversion : ℚ
  confidence : ℚ

/-- Success branch of `optimize_black_litterman` (lines 1807–1824). -/
noncomputable def blSuccessResult {n : ℕ} (μ : Fin n → ℚ)
    (cov : Matrix (Fin n) (Fin n) ℚ) (rf : ℚ) (x : Fin n → ℚ) : BLResult n :=
  { solverSuccessResult μ cov rf x with
    tau := 1 / 40
    riskAversion := 3
    confidence := 3 / 4 }

/-! ## Helper lemmas -/

theorem sum_map_div (l : List ℚ) (t : ℚ) : (l.map (· / t)).sum = l.sum / t := by
  induction l with
  | nil => simp
  | cons x xs ih => simp [ih, add_div]

theorem foldl_min_le_init (l : List ℚ) (a : ℚ) : l.foldl min a ≤ a := by
  induction l generalizing a with
  | nil => simp
  | cons x xs ih => exact le_trans (ih (min a x)) (min_le_left a x)

theorem foldl_min_of_le (l : List ℚ) (a : ℚ) (h : ∀ x ∈ l, a ≤ x) :
    l.foldl min a = a := by
  induction l generalizing a with
  | nil => rfl
  | cons x xs ih =>
    have hx : a ≤ x := h x (by simp)
    simpa [min_eq_left hx] using ih a (fun y hy => h y (by simp [hy]))

theorem effectiveWeights_sum {n : ℕ} (w : Fin n → ℚ) (h : (∑ j, w j) ≠ 0) :
    (∑ i, effectiveWeights w i) = 1 := by
  simp only [effectiveWeights]
  rw [← Finset.sum_div, div_self h]

theorem effectiveWeights_smul {n : ℕ} (w : Fin n → ℚ) (c : ℚ) (hc : c ≠ 0) :
    effectiveWeights (fun i => c * w i) = effectiveWeights w := by
  funext i
  simp only [effectiveWeights, ← Finset.mul_sum]
  rw [mul_div_mul_left _ _ hc]

/-! ## C10 — analyze-path weights are normalized, metrics are scale invariant -/

/-- C10: on the analyze path the weight vector actually used for all risk
metrics is the input weights divided by their own sum; the effective weights
therefore sum to exactly 1 whenever the informational weights pass the
±10-of-100 sum check, and two analyze requests over the same price data whose
weight vectors are positive scalar multiples of each other (both passing the
check) produce identical risk metrics. -/
theorem claim10_scale_invariance {n : ℕ} (rows : List (Fin n → ℚ))
    (w : Fin n → ℚ) (c : ℚ) (hw : |(∑ i, w i) - 1| ≤ 1 / 10) (hc : 0 < c)
    (_hw2 : |(∑ i, c * w i) - 1| ≤ 1 / 10) :
    effectiveWeights w = (fun i => w i / ∑ j, w j) ∧
    (∑ i, effectiveWeights w i) = 1 ∧
    analyzeRiskMetrics rows (fun i => c * w i) = analyzeRiskMetrics rows w := by
  have hsum : (∑ j, w j) ≠ 0 := by
    intro h0
    rw [h0] at hw
    norm_num at hw
  refine ⟨rfl, effectiveWeights_sum w hsum, ?_⟩
  have he := effectiveWeights_smul w c (ne_of_gt hc)
  simp only [analyzeRiskMetrics, portfolioSeries, he]

/-- Witness for C10 at `w = (1/2, 1/2)`, `c = 21/20`. -/
theorem claim10_scale_invariance_witness :
    analyzeRiskMetrics ([] : List (Fin 2 → ℚ)) (fun i => (21 / 20 : ℚ) * ![1/2, 1/2] i) =
      analyzeRiskMetrics [] ![1/2, 1/2] :=
  (claim10_scale_invariance [] ![1/2, 1/2] (21 / 20)
    (by norm_num [Fin.sum_univ_two, abs_le]) (by norm_num)
    (by norm_num [Fin.sum_univ_two, abs_le])).2.2

/-! ## C8 — maximum drawdown -/

theorem cumprodFrom_pos_chain (rs : List ℚ) (c : ℚ) (hc : 0 < c)
    (h : ∀ x ∈ rs, 0 < x) :
    List.Chain (· ≤ ·) c (cumprodFrom c rs) ∧ ∀ y ∈ cumprodFrom c rs, 0 < y := by
  induction rs generalizing c with
  | nil => simp [cumprodFrom]
  | cons r rs ih =>
    have hr : 0 < r := h r (by simp)
    have hc' : 0 < c * (1 + r) := mul_pos hc (by linarith)
    have hle : c ≤ c * (1 + r) := by nlinarith
    obtain ⟨h1, h2⟩ := ih (c * (1 + r)) hc' (fun x hx => h x (by simp [hx]))
    refine ⟨List.Chain.cons hle h1, ?_⟩
    intro y hy
    rcases List.mem_cons.1 hy with rfl | hy
    · exact hc'
    · exact h2 y hy

theorem runningMaxFrom_of_chain (l : List ℚ) (m : ℚ)
    (h : List.Chain (· ≤ ·) m l) : runningMaxFrom m l = l := by
  induction l generalizing m with
  | nil => rfl
  | cons x xs ih =>
    rcases List.chain_cons.1 h with ⟨h1, h2⟩
    simp [runningMaxFrom, max_eq_right h1, ih x h2]

/-- C8 counterexample: for the flat return series `[0, 0]` the reported
maximum drawdown is `0`, yet the cumulative product `[1, 1]` is not strictly
monotonically increasing and not every return is positive — refuting the
claimed "equals 0 exactly when" equivalence. -/
theorem claim8_counterexample :
    maxDrawdown [0, 0] = 0 ∧ ¬ List.Chain' (· < ·) (cumprod [0, 0]) ∧
    ¬ (∀ x ∈ ([0, 0] : List ℚ), 0 < x) := by
  refine ⟨?_, ?_, ?_⟩
  · norm_num [maxDrawdown, drawdowns, cumprod, cumprodFrom, runningMax,
      runningMaxFrom]
  · norm_num [cumprod, cumprodFrom, List.chain'_cons]
  · intro h
    exact absurd (h 0 (by simp)) (by norm_num)

/-- C8 amended: for every non-empty daily return series whose first return is
not `-1`, the reported maximum drawdown — the minimum over time of the
cumulative product of `1 + return` divided by its running maximum, minus 1 —
is ≤ 0; and it equals 0 whenever every return is positive (which makes the
cumulative product strictly increasing).  The converse direction of the
original claim fails: a flat series also reports 0. -/
theorem claim8_drawdown (r0 : ℚ) (rs : List ℚ) (h0 : r0 ≠ -1) :
    maxDrawdown (r0 :: rs) ≤ 0 ∧
    ((∀ x ∈ r0 :: rs, 0 < x) → maxDrawdown (r0 :: rs) = 0) := by
  have hc0 : (1 : ℚ) + r0 ≠ 0 := fun h => h0 (by linarith)
  have h00 : (1 + r0) / (1 + r0) - 1 = 0 := by rw [div_self hc0]; ring
  constructor
  · have hdd : drawdowns (r0 :: rs) =
        ((1 + r0) / (1 + r0) - 1) ::
          List.zipWith (fun c m => c / m - 1) (cumprodFrom (1 + r0) rs)
            (runningMaxFrom (1 + r0) (cumprodFrom (1 + r0) rs)) := by
      simp [drawdowns, cumprod, cumprodFrom, runningMax]
    simp only [maxDrawdown, hdd, List.tail_cons, List.headD_cons, h00]
    exact foldl_min_le_init _ 0
  · intro hpos
    have hr0 : 0 < r0 := hpos r0 (by simp)
    have hcpos : 0 < (1 : ℚ) + r0 := by linarith
    obtain ⟨hchain, hallpos⟩ :=
      cumprodFrom_pos_chain rs (1 + r0) hcpos (fun x hx => hpos x (by simp [hx]))
    have hrm : runningMaxFrom (1 + r0) (cumprodFrom (1 + r0) rs) =
        cumprodFrom (1 + r0) rs := runningMaxFrom_of_chain _ _ hchain
    have hdd : drawdowns (r0 :: rs) =
        ((1 + r0) / (1 + r0) - 1) ::
          (cumprodFrom (1 + r0) rs).map (fun c => c / c - 1) := by
      simp [drawdowns, cumprod, cumprodFrom, runningMax, hrm, List.zipWith_same]
    simp only [maxDrawdown, hdd, List.tail_cons, List.headD_cons, h00]
    apply foldl_min_of_le
    intro x hx
    obtain ⟨c, hc, rfl⟩ := List.mem_map.1 hx
    rw [div_self (ne_of_gt (hallpos c hc))]
    norm_num

/-- Witness for C8 (amended) at the series `[1/10, 2/10]`. -/
theorem claim8_drawdown_witness : maxDrawdown [1/10, 2/10] = 0 :=
  (claim8_drawdown (1/10) [2/10] (by norm_num)).2 (by
    intro x hx
    rcases List.mem_cons.1 hx with rfl | hx
    · norm_num
    · rcases List.mem_cons.1 hx with rfl | hx
      · norm_num
      · simp at hx)

/-! ## C3 — no minimum-history gate exists -/

/-- C3 counterexample: two assets with only three aligned prices — hence 2
return rows, far below the claimed ~10-row minimum — are processed without any
`InsufficientHistoryError`: the pipeline succeeds and hands the 2-row return
matrix to statistics and optimization. -/
theorem claim3_counterexample :
    alignPipeline [("A", [1, 2, 3]), ("B", [2, 3, 4])] =
      .ok ⟨["A", "B"], 2, [("A", [1, 1/2]), ("B", [1/2, 1/3])]⟩ ∧ (2 : ℕ) < 10 := by
  constructor
  · norm_num [alignPipeline, pctChange, List.min?]
  · norm_num

/-- C3 amended: the pipelines of both endpoints perform no minimum-history
check at all — once at least two assets have usable data, alignment succeeds
and the request proceeds to statistics, risk metrics and optimization
regardless of how few return rows remain.  There is no
`InsufficientHistoryError` anywhere in the code. -/
theorem claim3_no_history_gate (priceData : List (String × List ℚ))
    (h : 2 ≤ (priceData.filter fun p => !p.2.isEmpty).length) :
    ∃ a, alignPipeline priceData = .ok a := by
  unfold alignPipeline
  have hlt : ¬ ((priceData.filter fun p => !p.2.isEmpty).length < 2) := by omega
  simp only [hlt, if_false]
  exact ⟨_, rfl⟩

/-- Witness for C3 (amended) at the two-asset, three-price input. -/
theorem claim3_no_history_gate_witness :
    ∃ a, alignPipeline [("A", [1, 2, 3]), ("B", [2, 3, 4])] = .ok a :=
  claim3_no_history_gate _ (by decide)

/-! ## C4 — all-methods-failed is embedded, not fatal -/

/-- C4 counterexample: when every requested method fails, the optimize request
does not fail as a whole — the response is still assembled with
`success = True` and the selector's `NoValidOptimizationError`-style error is
embedded under `optimal_selection`. -/
theorem claim4_counterexample :
    (optimizeResponse fun _ => some (.error "failed to converge")).success = true ∧
    (optimizeResponse fun _ => some (.error "failed to converge")).optimalSelection =
      .error "No hay métodos válidos para selección óptima" :=
  ⟨rfl, rfl⟩

/-- C4 amended: for every optimize request in which all requested methods fail
(each result carries an error field), the response is nevertheless returned
with `success = True`, and the "no valid methods" failure is embedded inside
the `optimal_selection` field of that otherwise successful response rather
than being fatal to the request. -/
theorem claim4_all_failed_embedded
    (results : Method → Option (Except String MethodMetrics))
    (h : ∀ m, results m = none ∨ ∃ e, results m = some (.error e)) :
    (optimizeResponse results).success = true ∧
    (optimizeResponse results).optimalSelection =
      .error "No hay métodos válidos para selección óptima" := by
  refine ⟨rfl, ?_⟩
  have hnone : ∀ m, (match results m with
      | some (.ok d) => some (m, compositeScore m d)
      | _ => none) = (none : Option (Method × ℚ)) := by
    intro m
    rcases h m with hm | ⟨e, hm⟩ <;> rw [hm]
  have hempty : scoredList results = [] := by
    simp only [scoredList, methodOrder, List.filterMap_cons, hnone,
      List.filterMap_nil]
  unfold optimizeResponse determineOptimalSelection
  rw [hempty]

/-- Witness for C4 (amended) at the all-error result set. -/
theorem claim4_all_failed_embedded_witness :
    (optimizeResponse fun _ => some (.error "x")).optimalSelection =
      .error "No hay métodos válidos para selección óptima" :=
  (claim4_all_failed_embedded _ (fun _ => Or.inr ⟨"x", rfl⟩)).2

/-! ## C5 — hybrid weights are renormalized element-wise averages -/

theorem dictLookup_nil (k : String) : dictLookup [] k = none := rfl

theorem dictLookup_cons_self (p : String × ℚ) (l : List (String × ℚ)) :
    dictLookup (p :: l) p.1 = some p.2 := by
  simp [dictLookup, List.find?_cons]

theorem dictLookup_cons_ne (p : String × ℚ) (l : List (String × ℚ)) (k : String)
    (h : p.1 ≠ k) : dictLookup (p :: l) k = dictLookup l k := by
  simp [dictLookup, List.find?_cons, h]

theorem dictLookup_ne_nil {l : List (String × ℚ)} {k : String} {a : ℚ}
    (h : dictLookup l k = some a) : l ≠ [] := by
  intro hl
  rw [hl] at h
  simp [dictLookup] at h

theorem dictLookup_map_div (l : List (String × ℚ)) (t : ℚ) (k : String) :
    dictLookup (l.map fun p => (p.1, p.2 / t)) k =
      (dictLookup l k).map (· / t) := by
  induction l with
  | nil => rfl
  | cons p l ih =>
    by_cases h : p.1 = k
    · subst h
      simp [dictLookup, List.find?_cons]
    · simp only [List.map_cons]
      rw [dictLookup_cons_ne (p.1, p.2 / t) _ k h, dictLookup_cons_ne p l k h, ih]

theorem combineWeights_lookup (rp mv : List (String × ℚ)) (s : String) (a b : ℚ)
    (ha : dictLookup rp s = some a) (hb : dictLookup mv s = some b) :
    dictLookup (combineWeights rp mv) s = some ((a + b) / 2) := by
  induction rp with
  | nil => simp [dictLookup] at ha
  | cons p rt ih =>
    by_cases h : p.1 = s
    · subst h
      rw [dictLookup_cons_self] at ha
      obtain rfl : p.2 = a := Option.some.inj ha
      rw [show combineWeights (p :: rt) mv =
        (p.1, (p.2 + b) / 2) :: combineWeights rt mv from by
          simp [combineWeights, List.filterMap_cons, hb]]
      exact dictLookup_cons_self (p.1, (p.2 + b) / 2) _
    · rw [dictLookup_cons_ne p rt s h] at ha
      have htail := ih ha
      cases hm : dictLookup mv p.1 with
      | none =>
        rw [show combineWeights (p :: rt) mv = combineWeights rt mv from by
          simp [combineWeights, List.filterMap_cons, hm]]
        exact htail
      | some c =>
        rw [show combineWeights (p :: rt) mv =
          (p.1, (p.2 + c) / 2) :: combineWeights rt mv from by
            simp [combineWeights, List.filterMap_cons, hm]]
        rw [dictLookup_cons_ne (p.1, (p.2 + c) / 2) _ s h]
        exact htail

theorem combineWeights_nil_of_disjoint (rp mv : List (String × ℚ))
    (h : ∀ p ∈ rp, dictLookup mv p.1 = none) : combineWeights rp mv = [] := by
  induction rp with
  | nil => rfl
  | cons p rt ih =>
    have hp := h p (by simp)
    rw [show combineWeights (p :: rt) mv = combineWeights rt mv from by
      simp [combineWeights, List.filterMap_cons, hp]]
    exact ih fun q hq => h q (by simp [hq])

/-- C5: whenever both Risk Parity and Markowitz weight dicts are available and
share the asset `s`, the hybrid weight of `s` is the arithmetic mean of the
two weights divided by the sum of all such means (the element-wise average
renormalized to total 1); the pre-normalization value is recoverable as half
the sum by multiplying back; and the hybrid optimizer fails with an explicit
error when either input is unavailable or when no asset is shared. -/
theorem claim5_hybrid_average (rp mv : List (String × ℚ)) (s : String) (a b : ℚ)
    (ha : dictLookup rp s = some a) (hb : dictLookup mv s = some b)
    (htot : ((combineWeights rp mv).map Prod.snd).sum ≠ 0) :
    (∃ hw, optimizeHybridWeights rp mv = .ok hw ∧
      dictLookup hw s =
        some ((a + b) / 2 / ((combineWeights rp mv).map Prod.snd).sum) ∧
      (a + b) / 2 / ((combineWeights rp mv).map Prod.snd).sum *
        ((combineWeights rp mv).map Prod.snd).sum = (a + b) / 2 ∧
      (hw.map Prod.snd).sum = 1) ∧
    (∀ mv2, optimizeHybridWeights [] mv2 =
      .error "Se requieren tanto Risk Parity como Markowitz para optimización híbrida") ∧
    (∀ rp2, optimizeHybridWeights rp2 [] =
      .error "Se requieren tanto Risk Parity como Markowitz para optimización híbrida") ∧
    (∀ rp2 mv2, rp2 ≠ [] → mv2 ≠ [] → (∀ p ∈ rp2, dictLookup mv2 p.1 = none) →
      optimizeHybridWeights rp2 mv2 =
        .error "No hay símbolos comunes entre Risk Parity y Markowitz") := by
  have hlook := combineWeights_lookup rp mv s a b ha hb
  have hcomb_ne : combineWeights rp mv ≠ [] := dictLookup_ne_nil hlook
  have hrp_ne : rp ≠ [] := dictLookup_ne_nil ha
  have hmv_ne : mv ≠ [] := dictLookup_ne_nil hb
  refine ⟨?_, ?_, ?_, ?_⟩
  · have h1 : (rp.isEmpty || mv.isEmpty) = false := by
      simp [List.isEmpty_iff, hrp_ne, hmv_ne]
    have h2 : (combineWeights rp mv).isEmpty = false := by
      simp [List.isEmpty_iff, hcomb_ne]
    have hok : optimizeHybridWeights rp mv = .ok ((combineWeights rp mv).map
        fun p => (p.1, p.2 / ((combineWeights rp mv).map Prod.snd).sum)) := by
      simp only [optimizeHybridWeights, h1, h2, Bool.false_eq_true, if_false]
    refine ⟨_, hok, ?_, ?_, ?_⟩
    · rw [dictLookup_map_div, hlook]
      rfl
    · exact div_mul_cancel₀ _ htot
    · rw [show ((combineWeights rp mv).map fun p =>
        (p.1, p.2 / ((combineWeights rp mv).map Prod.snd).sum)).map Prod.snd =
          ((combineWeights rp mv).map Prod.snd).map
            (· / ((combineWeights rp mv).map Prod.snd).sum) from by
          rw [List.map_map, List.map_map]; rfl]
      rw [sum_map_div, div_self htot]
  · intro mv2
    rfl
  · intro rp2
    cases rp2 with
    | nil => rfl
    | cons p l => rfl
  · intro rp2 mv2 h2 h3 hdisj
    have h1 : (rp2.isEmpty || mv2.isEmpty) = false := by
      simp [List.isEmpty_iff, h2, h3]
    have h4 : combineWeights rp2 mv2 = [] :=
      combineWeights_nil_of_disjoint rp2 mv2 hdisj
    simp [optimizeHybridWeights, h1, h4]

/-- Witness for C5 with `rp = {A: 1/2, B: 1/2}`, `mv = {A: 3/5, B: 2/5}`. -/
theorem claim5_hybrid_average_witness :
    ∃ hw, optimizeHybridWeights [("A", 1/2), ("B", 1/2)] [("A", 3/5), ("B", 2/5)] =
      .ok hw ∧
      dictLookup hw "A" =
        some ((1/2 + 3/5) / 2 /
          ((combineWeights [("A", 1/2), ("B", 1/2)] [("A", 3/5), ("B", 2/5)]).map
            Prod.snd).sum) ∧
      (1/2 + 3/5) / 2 /
          ((combineWeights [("A", 1/2), ("B", 1/2)] [("A", 3/5), ("B", 2/5)]).map
            Prod.snd).sum *
          ((combineWeights [("A", 1/2), ("B", 1/2)] [("A", 3/5), ("B", 2/5)]).map
            Prod.snd).sum = (1/2 + 3/5) / 2 ∧
      (hw.map Prod.snd).sum = 1 :=
  (claim5_hybrid_average [("A", 1/2), ("B", 1/2)] [("A", 3/5), ("B", 2/5)] "A"
    (1/2) (3/5) rfl rfl
    (by
      rw [show combineWeights [("A", 1/2), ("B", 1/2)] [("A", 3/5), ("B", 2/5)] =
        [("A", (1/2 + 3/5) / 2), ("B", (1/2 + 2/5) / 2)] from rfl]
      norm_num)).1

/-! ## C1 — composite scoring, best-method maximality, descending ranking -/

theorem mem_methodOrder (m : Method) : m ∈ methodOrder := by
  cases m <;> simp [methodOrder]

theorem scoredList_mem_of_ok (results : Method → Option (Except String MethodMetrics))
    (m : Method) (d : MethodMetrics) (h : results m = some (.ok d)) :
    (m, compositeScore m d) ∈ scoredList results :=
  List.mem_filterMap.2 ⟨m, mem_methodOrder m, by rw [h]⟩

theorem scoredList_mem_elim (results : Method → Option (Except String MethodMetrics))
    (p : Method × ℚ) (hp : p ∈ scoredList results) :
    ∃ d, results p.1 = some (.ok d) ∧ p.2 = compositeScore p.1 d := by
  obtain ⟨m, _, hm⟩ := List.mem_filterMap.1 hp
  cases hr : results m with
  | none =>
    rw [hr] at hm
    simp at hm
  | some o =>
    cases o with
    | error e =>
      rw [hr] at hm
      simp at hm
    | ok d =>
      rw [hr] at hm
      have : (m, compositeScore m d) = p := Option.some.inj hm
      subst this
      exact ⟨d, hr, rfl⟩

theorem pyMaxFrom_mem (b : Method × ℚ) (l : List (Method × ℚ)) :
    pyMaxFrom b l = b ∨ pyMaxFrom b l ∈ l := by
  induction l generalizing b with
  | nil => exact Or.inl rfl
  | cons x xs ih =>
    rw [pyMaxFrom]
    rcases ih (if b.2 < x.2 then x else b) with h | h
    · rw [h]
      split
      · exact Or.inr (List.mem_cons_self x xs)
      · exact Or.inl rfl
    · exact Or.inr (List.mem_cons_of_mem x h)

theorem pyMaxFrom_le (b : Method × ℚ) (l : List (Method × ℚ)) :
    b.2 ≤ (pyMaxFrom b l).2 ∧ ∀ y ∈ l, y.2 ≤ (pyMaxFrom b l).2 := by
  induction l generalizing b with
  | nil => exact ⟨le_refl _, by simp⟩
  | cons x xs ih =>
    obtain ⟨h1, h2⟩ := ih (if b.2 < x.2 then x else b)
    have hb : b.2 ≤ (if b.2 < x.2 then x else b).2 := by
      split
      · exact le_of_lt ‹_›
      · exact le_refl _
    have hx : x.2 ≤ (if b.2 < x.2 then x else b).2 := by
      split
      · exact le_refl _
      · exact le_of_not_lt ‹_›
    constructor
    · rw [pyMaxFrom]
      exact le_trans hb h1
    · intro y hy
      rw [pyMaxFrom]
      rcases List.mem_cons.1 hy with rfl | hy
      · exact le_trans hx h1
      · exact h2 y hy

/-- C1: every requested method whose result has no error field is scored as
`25·sharpe + 100·expected_return + max(0, 25 − 100·volatility)` plus the fixed
per-method bonus (risk_parity +5, markowitz +8, hybrid +10,
black_litterman +7) — and only such methods are scored; the selected best
method is a scored method attaining the maximum of these scores; and the
returned method comparison is a permutation of all scored methods sorted in
descending score order. -/
theorem claim1_selector_scoring
    (results : Method → Option (Except String MethodMetrics))
    (m0 : Method) (d0 : MethodMetrics) (h0 : results m0 = some (.ok d0)) :
    ∃ sel, determineOptimalSelection results = .ok sel ∧
      (∀ m d, results m = some (.ok d) →
        (m, d.sharpe * 25 + d.expRet * 100 + max 0 (25 - d.vol * 100) + methodBonus m)
          ∈ scoredList results) ∧
      (∀ p ∈ scoredList results,
        ∃ d, results p.1 = some (.ok d) ∧ p.2 = compositeScore p.1 d) ∧
      (sel.bestMethod, sel.totalScore) ∈ scoredList results ∧
      (∀ p ∈ scoredList results, p.2 ≤ sel.totalScore) ∧
      sel.methodComparison.Perm (scoredList results) ∧
      List.Sorted scoreGe sel.methodComparison := by
  have hmem := scoredList_mem_of_ok results m0 d0 h0
  obtain ⟨x, xs, hsl⟩ : ∃ x xs, scoredList results = x :: xs := by
    cases h' : scoredList results with
    | nil =>
      rw [h'] at hmem
      simp at hmem
    | cons x xs => exact ⟨x, xs, rfl⟩
  have hds : determineOptimalSelection results =
      .ok ⟨(pyMaxFrom x xs).1, (pyMaxFrom x xs).2, (x :: xs).insertionSort scoreGe⟩ := by
    unfold determineOptimalSelection
    rw [hsl]
  refine ⟨_, hds, ?_, ?_, ?_, ?_, ?_, ?_⟩
  · intro m d h
    exact scoredList_mem_of_ok results m d h
  · exact scoredList_mem_elim results
  · show pyMaxFrom x xs ∈ scoredList results
    rw [hsl]
    rcases pyMaxFrom_mem x xs with h | h
    · rw [h]
      exact List.mem_cons_self x xs
    · exact List.mem_cons_of_mem x h
  · intro p hp
    rw [hsl] at hp
    obtain ⟨h1, h2⟩ := pyMaxFrom_le x xs
    rcases List.mem_cons.1 hp with rfl | hp
    · exact h1
    · exact h2 p hp
  · rw [hsl]
    exact List.perm_insertionSort scoreGe (x :: xs)
  · exact List.sorted_insertionSort scoreGe (x :: xs)

/-- Witness for C1 at a single converged Markowitz result. -/
theorem claim1_selector_scoring_witness :
    ∃ sel, determineOptimalSelection
      (fun m => match m with
        | Method.markowitz => some (.ok ⟨1, 1/10, 1/5⟩)
        | _ => none) = .ok sel :=
  ((claim1_selector_scoring _ Method.markowitz ⟨1, 1/10, 1/5⟩ rfl).elim
    fun sel h => ⟨sel, h.1⟩)

/-! ## C6 — view-free Black-Litterman -/

/-- C6: the Equilibrium run uses the equal-weight prior `1/n`; the implied
return vector is `3.0 · Σ · prior`; the objective handed to the solver is
`wᵀ(Σ + 0.025·Σ)w − 3.0 · wᵀ(implied returns)` (with the view-free posterior
returns equal to the implied ones); the reported confidence is exactly 0.75 on
every success; and the reported expected return, volatility and Sharpe ratio
are computed from the original `μ` and `Σ`, not the posterior quantities: the
expected return is `μ·w`, the squared volatility is `wᵀΣw`, and the Sharpe
ratio is `(μ·w − rf)` over the original-`Σ` volatility (0 at zero
volatility). -/
theorem claim6_black_litterman {n : ℕ} (cov : Matrix (Fin n) (Fin n) ℚ)
    (μ x : Fin n → ℚ) (rf : ℚ)
    (hpsd : 0 ≤ Matrix.dotProduct x (cov.mulVec x)) :
    marketWeights n = (fun _ => 1 / (n : ℚ)) ∧
    (∀ i, impliedReturns cov i = 3 * ∑ j, cov i j * (1 / (n : ℚ))) ∧
    blReturns cov = impliedReturns cov ∧
    (∀ w, blObjective cov w =
      Matrix.dotProduct w ((cov + (1 / 40 : ℚ) • cov).mulVec w) -
        3 * Matrix.dotProduct (impliedReturns cov) w) ∧
    (blSuccessResult μ cov rf x).confidence = 3 / 4 ∧
    (blSuccessResult μ cov rf x).tau = 1 / 40 ∧
    (blSuccessResult μ cov rf x).expectedReturn = Matrix.dotProduct μ x ∧
    (blSuccessResult μ cov rf x).volatility ^ 2 =
      ((Matrix.dotProduct x (cov.mulVec x) : ℚ) : ℝ) ∧
    (blSuccessResult μ cov rf x).sharpeRatio =
      (if 0 < Real.sqrt ((Matrix.dotProduct x (cov.mulVec x) : ℚ) : ℝ) then
        (((Matrix.dotProduct μ x - rf : ℚ)) : ℝ) /
          Real.sqrt ((Matrix.dotProduct x (cov.mulVec x) : ℚ) : ℝ)
      else 0) := by
  refine ⟨rfl, ?_, rfl, fun w => rfl, rfl, rfl, rfl, ?_, rfl⟩
  · intro i
    simp [impliedReturns, Matrix.mulVec, Matrix.dotProduct, marketWeights,
      Pi.smul_apply, smul_eq_mul]
  · have h0 : (0 : ℝ) ≤ ((Matrix.dotProduct x (cov.mulVec x) : ℚ) : ℝ) := by
      exact_mod_cast hpsd
    simpa [blSuccessResult, solverSuccessResult] using Real.sq_sqrt h0

/-- Witness for C6 at a one-asset instance with `Σ = (2)`, `w = (1)`. -/
theorem claim6_black_litterman_witness :
    (blSuccessResult ![1] !![2] 0 ![1]).confidence = 3 / 4 :=
  (claim6_black_litterman !![2] ![1] ![1] 0 (by
    norm_num [Matrix.dotProduct, Matrix.mulVec, Fin.sum_univ_one])).2.2.2.2.1

/-! ## C9 — weight bounds on converged optimizer outputs -/

theorem combineWeights_cons_skip (rt : List (String × ℚ)) (s : String) (b : ℚ)
    (mt : List (String × ℚ)) (h : ∀ p ∈ rt, p.1 ≠ s) :
    combineWeights rt ((s, b) :: mt) = combineWeights rt mt := by
  induction rt with
  | nil => rfl
  | cons p rt ih =>
    have hp : p.1 ≠ s := h p (by simp)
    have hd : dictLookup ((s, b) :: mt) p.1 = dictLookup mt p.1 :=
      dictLookup_cons_ne (s, b) mt p.1 fun hh => hp hh.symm
    have htail := ih fun q hq => h q (by simp [hq])
    cases hm : dictLookup mt p.1 with
    | none =>
      rw [show combineWeights (p :: rt) ((s, b) :: mt) =
          combineWeights rt ((s, b) :: mt) from by
        simp [combineWeights, List.filterMap_cons, hd, hm]]
      rw [show combineWeights (p :: rt) mt = combineWeights rt mt from by
        simp [combineWeights, List.filterMap_cons, hm]]
      exact htail
    | some c =>
      rw [show combineWeights (p :: rt) ((s, b) :: mt) =
          (p.1, (p.2 + c) / 2) :: combineWeights rt ((s, b) :: mt) from by
        simp [combineWeights, List.filterMap_cons, hd, hm]]
      rw [show combineWeights (p :: rt) mt =
          (p.1, (p.2 + c) / 2) :: combineWeights rt mt from by
        simp [combineWeights, List.filterMap_cons, hm]]
      rw [htail]

theorem combineWeights_eq_zipWith (rp mv : List (String × ℚ))
    (hkeys : rp.map Prod.fst = mv.map Prod.fst)
    (hnd : (mv.map Prod.fst).Nodup) :
    combineWeights rp mv =
      List.zipWith (fun p q => (p.1, (p.2 + q.2) / 2)) rp mv := by
  induction rp generalizing mv with
  | nil =>
    have hmv : mv = [] := by
      cases mv with
      | nil => rfl
      | cons q mt => simp at hkeys
    subst hmv
    rfl
  | cons p rt ih =>
    cases mv with
    | nil => simp at hkeys
    | cons q mt =>
      simp only [List.map_cons, List.cons.injEq] at hkeys
      obtain ⟨hq1, hrest⟩ := hkeys
      simp only [List.map_cons, List.nodup_cons] at hnd
      obtain ⟨hqnot, hndt⟩ := hnd
      have hlq : dictLookup (q :: mt) p.1 = some q.2 := by
        rw [hq1]
        exact dictLookup_cons_self q mt
      have hskip : combineWeights rt (q :: mt) = combineWeights rt mt := by
        refine combineWeights_cons_skip rt q.1 q.2 mt ?_
        intro y hy heq
        apply hqnot
        rw [← heq, ← hrest]
        exact List.mem_map_of_mem Prod.fst hy
      rw [show combineWeights (p :: rt) (q :: mt) =
          (p.1, (p.2 + q.2) / 2) :: combineWeights rt (q :: mt) from by
        simp [combineWeights, List.filterMap_cons, hlq]]
      rw [hskip, ih mt hrest hndt]
      rfl

theorem zipWith_avg_sum (rp : List (String × ℚ)) :
    ∀ mv : List (String × ℚ), rp.length = mv.length →
    ((List.zipWith (fun p q => (p.1, (p.2 + q.2) / 2)) rp mv).map Prod.snd).sum =
      ((rp.map Prod.snd).sum + (mv.map Prod.snd).sum) / 2 := by
  induction rp with
  | nil =>
    intro mv h
    cases mv with
    | nil => norm_num
    | cons q mt => simp at h
  | cons p rt ih =>
    intro mv h
    cases mv with
    | nil => simp at h
    | cons q mt =>
      have hlen : rt.length = mt.length := by simpa using h
      simp only [List.zipWith_cons_cons, List.map_cons, List.sum_cons, ih mt hlen]
      ring

theorem mem_zipWith_avg (rp : List (String × ℚ)) :
    ∀ (mv : List (String × ℚ)) (x : String × ℚ),
    x ∈ List.zipWith (fun p q => (p.1, (p.2 + q.2) / 2)) rp mv →
    ∃ p ∈ rp, ∃ q ∈ mv, x = (p.1, (p.2 + q.2) / 2) := by
  induction rp with
  | nil =>
    intro mv x hx
    simp at hx
  | cons p rt ih =>
    intro mv x hx
    cases mv with
    | nil => simp at hx
    | cons q mt =>
      rcases List.mem_cons.1 hx with rfl | hx
      · exact ⟨p, by simp, q, by simp, rfl⟩
      · obtain ⟨p', hp', q', hq', rfl⟩ := ih mt x hx
        exact ⟨p', by simp [hp'], q', by simp [hq'], rfl⟩

/-- C9: converged solver outputs are returned unchanged by the solver-backed
optimizers, so their weights keep the solver's box bounds `[0.01, 0.80]` and
unit sum (within 1e-6); the hybrid optimizer preserves the property: averaging
two bounded unit-sum weight dicts over a shared key set and renormalizing
yields weights summing to exactly 1 with every component still in
`[0.01, 0.80]`; and the bound is never applied to the externally supplied
informational weights of the analyze path — a normalized informational weight
of 0.9 stays 0.9, above the 0.80 bound. -/
theorem claim9_weight_bounds {n : ℕ} (μ : Fin n → ℚ)
    (cov : Matrix (Fin n) (Fin n) ℚ) (rf : ℚ) (x : Fin n → ℚ)
    (hxlo : ∀ i, weightLo ≤ x i) (hxhi : ∀ i, x i ≤ weightHi)
    (hxs : |(∑ i, x i) - 1| ≤ 1 / 1000000)
    (rp mv : List (String × ℚ))
    (hkeys : rp.map Prod.fst = mv.map Prod.fst)
    (hnd : (mv.map Prod.fst).Nodup)
    (hrp : ∀ p ∈ rp, weightLo ≤ p.2 ∧ p.2 ≤ weightHi)
    (hmv : ∀ p ∈ mv, weightLo ≤ p.2 ∧ p.2 ≤ weightHi)
    (hrps : (rp.map Prod.snd).sum = 1) (hmvs : (mv.map Prod.snd).sum = 1)
    (hne : rp ≠ []) :
    ((solverSuccessResult μ cov rf x).weights = x ∧
      (∀ i, weightLo ≤ (solverSuccessResult μ cov rf x).weights i ∧
        (solverSuccessResult μ cov rf x).weights i ≤ weightHi) ∧
      |(∑ i, (solverSuccessResult μ cov rf x).weights i) - 1| ≤ 1 / 1000000) ∧
    (blSuccessResult μ cov rf x).weights = x ∧
    (∃ hw, optimizeHybridWeights rp mv = .ok hw ∧
      (hw.map Prod.snd).sum = 1 ∧
      ∀ p ∈ hw, weightLo ≤ p.2 ∧ p.2 ≤ weightHi) ∧
    (effectiveWeights (![9/10, 1/10] : Fin 2 → ℚ) 0 = 9/10 ∧
      ¬ effectiveWeights (![9/10, 1/10] : Fin 2 → ℚ) 0 ≤ weightHi) := by
  have hlen : rp.length = mv.length := by
    have := congrArg List.length hkeys
    simpa using this
  have hmv_ne : mv ≠ [] := by
    intro hmv0
    subst hmv0
    exact hne (List.length_eq_zero.1 (by simpa using hlen))
  have hcz := combineWeights_eq_zipWith rp mv hkeys hnd
  have hsum1 : ((combineWeights rp mv).map Prod.snd).sum = 1 := by
    rw [hcz, zipWith_avg_sum rp mv hlen, hrps, hmvs]
    norm_num
  have hcomb_ne : combineWeights rp mv ≠ [] := by
    rw [hcz]
    cases rp with
    | nil => exact absurd rfl hne
    | cons p rt =>
      cases mv with
      | nil => exact absurd rfl hmv_ne
      | cons q mt => simp
  have h1 : (rp.isEmpty || mv.isEmpty) = false := by
    simp [List.isEmpty_iff, hne, hmv_ne]
  have h2 : (combineWeights rp mv).isEmpty = false := by
    simp [List.isEmpty_iff, hcomb_ne]
  have hok : optimizeHybridWeights rp mv = .ok ((combineWeights rp mv).map
      fun p => (p.1, p.2 / ((combineWeights rp mv).map Prod.snd).sum)) := by
    simp only [optimizeHybridWeights, h1, h2, Bool.false_eq_true, if_false]
  have heff : effectiveWeights (![9/10, 1/10] : Fin 2 → ℚ) 0 = 9/10 := by
    norm_num [effectiveWeights, Fin.sum_univ_two]
  refine ⟨⟨rfl, fun i => ⟨hxlo i, hxhi i⟩, hxs⟩, rfl, ⟨_, hok, ?_, ?_⟩,
    heff, by rw [heff]; norm_num [weightHi]⟩
  · rw [show (((combineWeights rp mv).map fun p =>
        (p.1, p.2 / ((combineWeights rp mv).map Prod.snd).sum)).map Prod.snd) =
          ((combineWeights rp mv).map Prod.snd).map
            (· / ((combineWeights rp mv).map Prod.snd).sum) from by
      rw [List.map_map, List.map_map]; rfl]
    rw [sum_map_div, hsum1]
    norm_num
  · intro p hp
    obtain ⟨q, hq, rfl⟩ := List.mem_map.1 hp
    rw [hsum1] at *
    show weightLo ≤ q.2 / 1 ∧ q.2 / 1 ≤ weightHi
    rw [div_one]
    rw [hcz] at hq
    obtain ⟨p', hp', q', hq', rfl⟩ := mem_zipWith_avg rp mv q hq
    obtain ⟨hl1, hh1⟩ := hrp p' hp'
    obtain ⟨hl2, hh2⟩ := hmv q' hq'
    simp only [weightLo, weightHi] at hl1 hh1 hl2 hh2 ⊢
    constructor <;> [linarith; linarith]

/-- Witness for C9 at a concrete converged pair of weight dicts and a
feasible solver output. -/
theorem claim9_weight_bounds_witness :
    ∃ hw, optimizeHybridWeights [("A", 1/2), ("B", 1/2)] [("A", 2/5), ("B", 3/5)] =
      .ok hw ∧ (hw.map Prod.snd).sum = 1 ∧
      ∀ p ∈ hw, weightLo ≤ p.2 ∧ p.2 ≤ weightHi :=
  (claim9_weight_bounds ![0, 0] 0 0 ![1/2, 1/2]
    (by intro i; fin_cases i <;> norm_num [weightLo])
    (by intro i; fin_cases i <;> norm_num [weightHi])
    (by norm_num [Fin.sum_univ_two, abs_le])
    [("A", 1/2), ("B", 1/2)] [("A", 2/5), ("B", 3/5)] rfl
    (by simp)
    (by
      intro p hp
      rcases List.mem_cons.1 hp with rfl | hp
      · norm_num [weightLo, weightHi]
      · rcases List.mem_cons.1 hp with rfl | hp
        · norm_num [weightLo, weightHi]
        · simp at hp)
    (by
      intro p hp
      rcases List.mem_cons.1 hp with rfl | hp
      · norm_num [weightLo, weightHi]
      · rcases List.mem_cons.1 hp with rfl | hp
        · norm_num [weightLo, weightHi]
        · simp at hp)
    (by norm_num) (by norm_num) (by simp)).2.2.1

/-! ## C7 — VaR, CVaR and the zero-volatility guards -/

theorem getD_eq_get (l : List ℚ) (i : ℕ) (d : ℚ) (h : i < l.length) :
    l.getD i d = l.get ⟨i, h⟩ := by
  simp [List.getD_eq_getElem?_getD, List.getElem?_eq_getElem h]

theorem le_interp (s : List ℚ) (hsort : List.Sorted (· ≤ ·) s) (k : ℕ) (f : ℚ)
    (hf : 0 ≤ f) (hk : k < s.length) :
    s.get ⟨k, hk⟩ ≤ s.getD k 0 + f * (s.getD (k + 1) (s.getD k 0) - s.getD k 0) := by
  have ha : s.getD k 0 = s.get ⟨k, hk⟩ := getD_eq_get s k 0 hk
  by_cases h2 : k + 1 < s.length
  · have hb : s.getD (k + 1) (s.getD k 0) = s.get ⟨k + 1, h2⟩ :=
      getD_eq_get s (k + 1) _ h2
    have hab : s.get ⟨k, hk⟩ ≤ s.get ⟨k + 1, h2⟩ :=
      hsort.rel_get_of_lt (Fin.mk_lt_mk.2 (Nat.lt_succ_self k))
    rw [hb, ha]
    nlinarith
  · push_neg at h2
    rw [List.getD_eq_default _ _ h2, ha]
    simp

theorem exists_mem_le_percentile5 (l : List ℚ) (hne : l ≠ []) :
    ∃ x ∈ l, x ≤ percentile 5 l := by
  have hpos : 0 < l.length := List.length_pos.2 hne
  have h1 : (1 : ℚ) ≤ (l.length : ℚ) := by exact_mod_cast hpos
  have hq0 : (0 : ℚ) ≤ ((l.length : ℚ) - 1) * (5 / 100) := by nlinarith
  have hfl : ((⌊((l.length : ℚ) - 1) * (5 / 100)⌋.toNat : ℕ) : ℚ) ≤
      ((l.length : ℚ) - 1) * (5 / 100) := by
    have h3 : ((⌊((l.length : ℚ) - 1) * (5 / 100)⌋.toNat : ℕ) : ℚ) =
        ((⌊((l.length : ℚ) - 1) * (5 / 100)⌋ : ℤ) : ℚ) := by
      exact_mod_cast congrArg (fun z : ℤ => (z : ℚ))
        (Int.toNat_of_nonneg (Int.floor_nonneg.2 hq0))
    rw [h3]
    exact Int.floor_le _
  have hkn : ⌊((l.length : ℚ) - 1) * (5 / 100)⌋.toNat < l.length := by
    by_contra hge
    push_neg at hge
    have h4 : (l.length : ℚ) ≤
        ((⌊((l.length : ℚ) - 1) * (5 / 100)⌋.toNat : ℕ) : ℚ) := by
      exact_mod_cast hge
    nlinarith
  have hks : ⌊((l.length : ℚ) - 1) * (5 / 100)⌋.toNat <
      (l.insertionSort (· ≤ ·)).length := by
    rw [List.length_insertionSort]
    exact hkn
  have hsort : List.Sorted (· ≤ ·) (l.insertionSort (· ≤ ·)) :=
    List.sorted_insertionSort (· ≤ ·) l
  have hmem : (l.insertionSort (· ≤ ·)).get
      ⟨⌊((l.length : ℚ) - 1) * (5 / 100)⌋.toNat, hks⟩ ∈ l :=
    (List.perm_insertionSort (· ≤ ·) l).subset (List.get_mem _ _ _)
  refine ⟨_, hmem, ?_⟩
  exact le_interp (l.insertionSort (· ≤ ·)) hsort
    ⌊((l.length : ℚ) - 1) * (5 / 100)⌋.toNat
    (((l.length : ℚ) - 1) * (5 / 100) -
      ((⌊((l.length : ℚ) - 1) * (5 / 100)⌋.toNat : ℕ) : ℚ))
    (by linarith) hks

/-- C7: for every non-empty daily portfolio return series, the reported
VaR-95 is the 5th percentile of the series; the set of returns at or below
VaR-95 is non-empty and the reported CVaR-95 is exactly their mean (sum over
count); and the reported Sharpe ratio is annualized return over annualized
volatility with `0` substituted when the volatility is `0` — and likewise `0`
for the diversification ratio at zero volatility. -/
theorem claim7_risk_metrics (s : List ℚ) (wv : ℝ) (h : s ≠ []) :
    (riskMetrics s wv).var95 = percentile 5 s ∧
    s.filter (fun x => x ≤ percentile 5 s) ≠ [] ∧
    (riskMetrics s wv).cvar95 =
      (s.filter (fun x => x ≤ percentile 5 s)).sum /
        ((s.filter (fun x => x ≤ percentile 5 s)).length : ℚ) ∧
    (annualizedVol s = 0 →
      (riskMetrics s wv).sharpeRatio = 0 ∧
      (riskMetrics s wv).diversificationRatio = 0) ∧
    (annualizedVol s ≠ 0 →
      (riskMetrics s wv).sharpeRatio =
        ((annualizedReturn s : ℚ) : ℝ) / annualizedVol s ∧
      (riskMetrics s wv).diversificationRatio = wv / annualizedVol s) := by
  obtain ⟨x, hx, hxle⟩ := exists_mem_le_percentile5 s h
  have hfil : x ∈ s.filter (fun y => y ≤ percentile 5 s) :=
    List.mem_filter.2 ⟨hx, by simp [hxle]⟩
  refine ⟨rfl, List.ne_nil_of_mem hfil, rfl, ?_, ?_⟩
  · intro hv
    constructor <;> simp [riskMetrics, hv]
  · intro hv
    have hnn : 0 ≤ annualizedVol s := Real.sqrt_nonneg _
    have hlt : 0 < annualizedVol s := lt_of_le_of_ne hnn (Ne.symm hv)
    constructor <;> simp [riskMetrics, hlt]

/-- Witness for C7 at the singleton series `[0]`. -/
theorem claim7_risk_metrics_witness :
    (riskMetrics [0] 0).var95 = percentile 5 [0] :=
  (claim7_risk_metrics [0] 0 (List.cons_ne_nil 0 [])).1

/-! ## C2 — the outlier partition never uses the flagged set -/

/-- When the pandas index consists of date strings — the situation of the
analyze path — the loop's membership test `i in outlier_indices` compares the
positional integer `i` against date-string labels, so it is always false: the
outlier list comes out empty and every point lands in the normal list. -/
theorem detectColumn_string_labels (labels : List PyLabel) (vals : List ℚ)
    (h : ∀ lab ∈ labels, ∃ s, lab = PyLabel.str s) :
    (detectColumn labels vals).outliers = [] ∧
    (detectColumn labels vals).normal = ((labels.zip vals).enum).map Prod.snd := by
  have hflag : ∀ lab ∈ ((labels.zip vals).filterMap fun p =>
      if zFlag vals p.2 || iqrFlag vals p.2 then some p.1 else none),
      ∃ s, lab = PyLabel.str s := by
    intro lab hlab
    obtain ⟨p, hp, hpe⟩ := List.mem_filterMap.1 hlab
    have hp1 : p.1 = lab := by
      by_cases hc : (zFlag vals p.2 || iqrFlag vals p.2) = true
      · rw [if_pos hc] at hpe
        exact Option.some.inj hpe
      · rw [if_neg hc] at hpe
        exact absurd hpe (by simp)
    rw [← hp1]
    exact h p.1 (List.of_mem_zip hp).1
  have hmem : ∀ q : ℕ × (PyLabel × ℚ),
      decide (PyLabel.int q.1 ∈ ((labels.zip vals).filterMap fun p =>
        if zFlag vals p.2 || iqrFlag vals p.2 then some p.1 else none)) = false := by
    intro q
    apply decide_eq_false
    intro hin
    obtain ⟨s, hs⟩ := hflag _ hin
    exact PyLabel.noConfusion hs
  constructor
  · simp only [detectColumn]
    rw [List.filter_eq_nil_iff.2 fun a _ => by rw [hmem a]; exact Bool.false_ne_true]
    rfl
  · simp only [detectColumn]
    rw [List.filter_eq_self.2 fun a _ => by rw [hmem a]; rfl]

/-- C2 (code bug): on the concrete 12-point series with one spike and a
date-string index, the spike is flagged by the z-score criterion (and by the
IQR criterion) and the per-method counters report it — yet the reported
outlier list is empty, all 12 points including the spike appear in the normal
list, and the aggregate outlier percentage is 0.  The code unions the flagged
*index labels* into `outlier_indices` but then tests membership of the
positional counter `i`, which never matches a date label, contradicting both
the claimed partition and the code's own per-method counts. -/
theorem claim2_outlier_partition_bug :
    zFlag spikeReturns 1 = true ∧
    iqrFlag spikeReturns 1 = true ∧
    (detectColumn spikeLabels spikeReturns).zscoreCount = 1 ∧
    (detectColumn spikeLabels spikeReturns).iqrCount = 1 ∧
    (detectColumn spikeLabels spikeReturns).outliers = [] ∧
    (detectColumn spikeLabels spikeReturns).normal.length = 12 ∧
    (detectPortfolioOutliers [("A", spikeLabels, spikeReturns)]).totalOutliers = 0 ∧
    (detectPortfolioOutliers [("A", spikeLabels, spikeReturns)]).outliersPercentage = 0 := by
  have hmeanV : mean ([0, 0, 0, 0, 0, 0, 0, 0, 0, 0, 0, 1] : List ℚ) = 1 / 12 := by
    norm_num [mean]
  have hvarV : sampleVar ([0, 0, 0, 0, 0, 0, 0, 0, 0, 0, 0, 1] : List ℚ) = 1 / 12 := by
    simp only [sampleVar, hmeanV]
    norm_num
  have hz0 : zFlag ([0, 0, 0, 0, 0, 0, 0, 0, 0, 0, 0, 1] : List ℚ) 0 = false := by
    simp only [zFlag, hmeanV, hvarV, decide_eq_false_iff_not]
    norm_num
  have hz1 : zFlag ([0, 0, 0, 0, 0, 0, 0, 0, 0, 0, 0, 1] : List ℚ) 1 = true := by
    simp only [zFlag, hmeanV, hvarV, decide_eq_true_eq]
    norm_num
  have hq1V : quantile (1 / 4) ([0, 0, 0, 0, 0, 0, 0, 0, 0, 0, 0, 1] : List ℚ) = 0 := by
    norm_num [quantile, List.insertionSort, List.orderedInsert,
      show Int.toNat 2 = 2 from rfl, show Int.toNat 8 = 8 from rfl,
      List.getElem_cons_succ, List.getElem_cons_zero]
  have hq3V : quantile (3 / 4) ([0, 0, 0, 0, 0, 0, 0, 0, 0, 0, 0, 1] : List ℚ) = 0 := by
    norm_num [quantile, List.insertionSort, List.orderedInsert,
      show Int.toNat 2 = 2 from rfl, show Int.toNat 8 = 8 from rfl,
      List.getElem_cons_succ, List.getElem_cons_zero]
  have hi0 : iqrFlag ([0, 0, 0, 0, 0, 0, 0, 0, 0, 0, 0, 1] : List ℚ) 0 = false := by
    simp only [iqrFlag, hq1V, hq3V, decide_eq_false_iff_not]
    norm_num
  have hi1 : iqrFlag ([0, 0, 0, 0, 0, 0, 0, 0, 0, 0, 0, 1] : List ℚ) 1 = true := by
    simp only [iqrFlag, hq1V, hq3V, decide_eq_true_eq]
    norm_num
  have hstr : ∀ lab ∈ spikeLabels, ∃ s, lab = PyLabel.str s := by
    intro lab hlab
    simp only [spikeLabels, List.mem_cons, List.not_mem_nil, or_false] at hlab
    rcases hlab with rfl | rfl | rfl | rfl | rfl | rfl | rfl | rfl | rfl | rfl | rfl | rfl <;>
      exact ⟨_, rfl⟩
  obtain ⟨hout, hnorm⟩ := detectColumn_string_labels spikeLabels spikeReturns hstr
  have hlen12 : (detectColumn spikeLabels spikeReturns).normal.length = 12 := by
    rw [hnorm]
    simp [spikeLabels, spikeReturns]
  have hzc : (detectColumn spikeLabels spikeReturns).zscoreCount = 1 := by
    simp only [detectColumn, spikeReturns, List.filter_cons, List.filter_nil,
      hz0, hz1]
    rfl
  have hic : (detectColumn spikeLabels spikeReturns).iqrCount = 1 := by
    simp only [detectColumn, spikeReturns, List.filter_cons, List.filter_nil,
      hi0, hi1]
    rfl
  refine ⟨?_, ?_, hzc, hic, hout, hlen12, ?_, ?_⟩
  · rw [show spikeReturns = ([0, 0, 0, 0, 0, 0, 0, 0, 0, 0, 0, 1] : List ℚ) from rfl]
    exact hz1
  · rw [show spikeReturns = ([0, 0, 0, 0, 0, 0, 0, 0, 0, 0, 0, 1] : List ℚ) from rfl]
    exact hi1
  · simp [detectPortfolioOutliers, hout]
  · simp [detectPortfolioOutliers, hout, hlen12]

end StockApp
